import Mathlib

/-!
# Verification of the tracker-assisted P2P file-sharing swarm

Shallow embedding of the core logic of the repository:

* `hashing.py`   — SHA-1 digest (`calculate_sha1`) and `verify_chunk`
* `file_chunker.py` — `divide_file_to_chunks`, `CHUNK_SIZE`
* `piece_manager.py` — `PieceManager` with availability counts and missing set
* `tracker_server.py` — peer table, `add_peer`, `send_peers_list`
* `peer.py`      — chunk serving (`handle_chunk_request`), request
  classification, the fetch-loop acceptance step of `download_chunks`,
  `reconstruct_file_from_chunks`, `update_top_peers`

Byte strings are modelled as `List Nat` (one entry per byte), Python dicts as
insertion-ordered association lists, Python sets as `Finset`.
-/

/-! ## SHA-1 (the digest used by `hashlib.sha1(...).hexdigest()`) -/

def mask32 : Nat := 4294967295

def rotl (n x : Nat) : Nat := ((x <<< n) ||| (x >>> (32 - n))) &&& mask32

/-- SHA-1 message padding: append `0x80`, zero bytes up to 56 mod 64, then the
bit length as an 8-byte big-endian integer. -/
def padMessage (data : List Nat) : List Nat :=
  let len := data.length
  let lenBits := 8 * len
  let padZeros := (119 - len % 64) % 64
  data ++ [128] ++ List.replicate padZeros 0 ++
    [(lenBits >>> 56) &&& 255, (lenBits >>> 48) &&& 255,
     (lenBits >>> 40) &&& 255, (lenBits >>> 32) &&& 255,
     (lenBits >>> 24) &&& 255, (lenBits >>> 16) &&& 255,
     (lenBits >>> 8) &&& 255, lenBits &&& 255]

/-- Group bytes into big-endian 32-bit words. -/
def bytesToWords : List Nat → List Nat
  | b0 :: b1 :: b2 :: b3 :: rest =>
      (((b0 * 256 + b1) * 256 + b2) * 256 + b3) :: bytesToWords rest
  | _ => []

/-- Group a word list into 16-word blocks. -/
def wordsToBlocks : List Nat → List (List Nat)
  | w0 :: w1 :: w2 :: w3 :: w4 :: w5 :: w6 :: w7 :: w8 :: w9 :: w10 :: w11 ::
      w12 :: w13 :: w14 :: w15 :: rest =>
      [w0, w1, w2, w3, w4, w5, w6, w7, w8, w9, w10, w11, w12, w13, w14, w15] ::
        wordsToBlocks rest
  | _ => []

/-- Message-schedule extension: starting from the reversed 16-word block,
prepend `n` further words `w[i] = rotl1 (w[i-3] xor w[i-8] xor w[i-14] xor
w[i-16])` and return the 16 + n words in order. -/
def extendWords : Nat → List Nat → List Nat
  | 0, acc => acc.reverse
  | n + 1, acc =>
      extendWords n
        (rotl 1 ((acc.getD 2 0) ^^^ (acc.getD 7 0) ^^^ (acc.getD 13 0) ^^^
          (acc.getD 15 0)) :: acc)

def sha1F (i b c d : Nat) : Nat :=
  if i < 20 then (b &&& c) ||| ((b ^^^ mask32) &&& d)
  else if i < 40 then b ^^^ c ^^^ d
  else if i < 60 then (b &&& c) ||| (b &&& d) ||| (c &&& d)
  else b ^^^ c ^^^ d

def sha1K (i : Nat) : Nat :=
  if i < 20 then 1518500249
  else if i < 40 then 1859775393
  else if i < 60 then 2400959708
  else 3395469782

def sha1Rounds : List Nat → Nat → Nat × Nat × Nat × Nat × Nat →
    Nat × Nat × Nat × Nat × Nat
  | [], _, st => st
  | w :: ws, i, (a, b, c, d, e) =>
      sha1Rounds ws (i + 1)
        ((rotl 5 a + sha1F i b c d + e + sha1K i + w) &&& mask32,
          a, rotl 30 b, c, d)

def compressBlock (st : Nat × Nat × Nat × Nat × Nat) (block : List Nat) :
    Nat × Nat × Nat × Nat × Nat :=
  let w80 := extendWords 64 block.reverse
  let (a, b, c, d, e) := sha1Rounds w80 0 st
  ((st.1 + a) &&& mask32, (st.2.1 + b) &&& mask32, (st.2.2.1 + c) &&& mask32,
    (st.2.2.2.1 + d) &&& mask32, (st.2.2.2.2 + e) &&& mask32)

def sha1Words (data : List Nat) : List Nat :=
  let blocks := wordsToBlocks (bytesToWords (padMessage data))
  let st := blocks.foldl compressBlock
    (1732584193, 4023233417, 2562383102, 271733878, 3285377520)
  [st.1, st.2.1, st.2.2.1, st.2.2.2.1, st.2.2.2.2]

def hexDigit (n : Nat) : Char :=
  if n < 10 then Char.ofNat (48 + n) else Char.ofNat (87 + n)

def wordToHexChars (w : Nat) : List Char :=
  [hexDigit ((w >>> 28) &&& 15), hexDigit ((w >>> 24) &&& 15),
   hexDigit ((w >>> 20) &&& 15), hexDigit ((w >>> 16) &&& 15),
   hexDigit ((w >>> 12) &&& 15), hexDigit ((w >>> 8) &&& 15),
   hexDigit ((w >>> 4) &&& 15), hexDigit (w &&& 15)]

/-- Model of `hashing.calculate_sha1`: SHA-1 hex digest of a byte string
(`hashlib.sha1(data).hexdigest()`). -/
def calculate_sha1 (data : List Nat) : String :=
  String.mk ((sha1Words data).map wordToHexChars).flatten

/-- Model of `hashing.verify_chunk`: recomputes the digest of the chunk and compares it
with the expected hex digest. -/
def verify_chunk (chunk_data : List Nat) (expected_hash : String) : Bool :=
  calculate_sha1 chunk_data == expected_hash

/-! ## `file_chunker.py` -/

/-- Model of `file_chunker.CHUNK_SIZE = 64 * 1024`. -/
def CHUNK_SIZE : Nat := 64 * 1024

/-- Recursion of `divide_file_to_chunks`: repeatedly `read(chunk_size)` from
the remaining bytes; each non-empty read yields `(chunk, sha1 hex digest,
chunk number)` with numbers counted from `k`.  A `read(0)` returns the empty
byte string, so `chunk_size = 0` terminates the loop at once. -/
def divideFrom (chunk_size : Nat) (data : List Nat) (k : Nat) :
    List (List Nat × String × Nat) :=
  if h : chunk_size = 0 ∨ data = [] then []
  else
    (data.take chunk_size, calculate_sha1 (data.take chunk_size), k) ::
      divideFrom chunk_size (data.drop chunk_size) (k + 1)
termination_by data.length
decreasing_by
  push_neg at h
  simp only [List.length_drop]
  exact Nat.sub_lt (List.length_pos.mpr h.2) (Nat.pos_of_ne_zero h.1)

/-- Model of `file_chunker.divide_file_to_chunks`: splits the file bytes into
`chunk_size`-byte pieces, pairing each with its SHA-1 hex digest and its
1-based sequential chunk number. -/
def divide_file_to_chunks (data : List Nat) (chunk_size : Nat := CHUNK_SIZE) :
    List (List Nat × String × Nat) :=
  divideFrom chunk_size data 1

/-! ## `piece_manager.py` -/

/-- Model of `PieceManager.__init__` state: `total_pieces`, the availability counter
dict (`defaultdict(int)`, insertion-ordered association list), and the missing
set `set(range(1, total_pieces + 1))`. -/
structure PieceManager where
  total_pieces : Int
  available_pieces : List (Int × Nat)
  missing_pieces : Finset Int
deriving DecidableEq

def PieceManager.init (total_pieces : Int) : PieceManager :=
  { total_pieces := total_pieces
    available_pieces := []
    missing_pieces := Finset.Icc 1 total_pieces }

/-- Model of `self.available_pieces[piece] += 1` on a `defaultdict(int)`: increment in
place if the key exists, else append the key with count `0 + 1`. -/
def bumpCount : List (Int × Nat) → Int → List (Int × Nat)
  | [], p => [(p, 1)]
  | (q, c) :: rest, p =>
      if q = p then (q, c + 1) :: rest else (q, c) :: bumpCount rest p

/-- Model of `PieceManager.update_available_pieces`. -/
def PieceManager.update_available_pieces (s : PieceManager)
    (peer_chunks : List Int) : PieceManager :=
  { s with available_pieces := peer_chunks.foldl bumpCount s.available_pieces }

/-- One iteration of the `get_rarest_piece` loop over
`available_pieces.items()`.  The accumulator holds `(rarest_piece, min_count)`;
`none` is the initial `rarest_piece = None, min_count = inf` state, in which
the `count < min_count` test is vacuously true. -/
def rarestStep (missing : Finset Int) (acc : Option (Int × Nat))
    (pc : Int × Nat) : Option (Int × Nat) :=
  match acc with
  | none => if pc.1 ∈ missing then some pc else none
  | some rm =>
      if pc.1 ∈ missing ∧ pc.2 < rm.2 then some pc else some rm

/-- Model of `PieceManager.get_rarest_piece`: scans `available_pieces.items()` in
insertion order, keeping the first strictly-smaller count among keys in
`missing_pieces`. -/
def PieceManager.get_rarest_piece (s : PieceManager) : Option Int :=
  (s.available_pieces.foldl (rarestStep s.missing_pieces) none).map Prod.fst

/-- Model of `PieceManager.mark_piece_complete`: `missing_pieces.discard(piece)`. -/
def PieceManager.mark_piece_complete (s : PieceManager) (piece_number : Int) :
    PieceManager :=
  { s with missing_pieces := s.missing_pieces.erase piece_number }

/-- Model of `PieceManager.is_complete`: `len(missing_pieces) == 0`. -/
def PieceManager.is_complete (s : PieceManager) : Bool :=
  s.missing_pieces.card == 0

/-- The two mutating operations of the Piece Directory, for stating facts
about arbitrary call sequences. -/
inductive PMOp where
  | update (peer_chunks : List Int)
  | mark (piece_number : Int)
deriving DecidableEq

def PieceManager.applyOp (s : PieceManager) : PMOp → PieceManager
  | .update cs => s.update_available_pieces cs
  | .mark p => s.mark_piece_complete p

def PieceManager.applyOps (s : PieceManager) (ops : List PMOp) : PieceManager :=
  ops.foldl PieceManager.applyOp s

/-! ## `tracker_server.py` -/

/-- Model of `peer_ip in self.peers` (dict key membership).  The tracker
peer table `self.peers` — a Python dict from peer address (`host:port`
string) to the chunk list the peer claims — is modelled as an
insertion-ordered association list with unique keys. -/
def containsKey (t : List (String × List Int)) (k : String) : Bool :=
  t.any (fun e => e.1 == k)

/-- Model of `self.peers[peer_ip] = chunks` on an existing key: the value is replaced
in place, the key keeps its position (Python dict update semantics). -/
def replaceVal : List (String × List Int) → String → List Int →
    List (String × List Int)
  | [], _, _ => []
  | (q, v) :: rest, k, chunks =>
      if q = k then (q, chunks) :: rest else (q, v) :: replaceVal rest k chunks

/-- Model of `Tracker.add_peer`, after the `ADD_PEER` message has been split into the
peer address and its parsed chunk list: a new address is appended to the table
and acknowledged `PEER_ADDED`; a pre-existing address has its chunk list
replaced and is acknowledged `PEER_UPDATED`.  Returns the updated table and
the acknowledgment sent to the registering peer. -/
def add_peer (t : List (String × List Int)) (peer_ip : String)
    (chunks : List Int) : List (String × List Int) × String :=
  if containsKey t peer_ip then (replaceVal t peer_ip chunks, "PEER_UPDATED")
  else (t ++ [(peer_ip, chunks)], "PEER_ADDED")

/-- Fold of `add_peer` over a sequence of registrations (the table part). -/
def applyRegistrations (t : List (String × List Int))
    (regs : List (String × List Int)) : List (String × List Int) :=
  regs.foldl (fun acc r => (add_peer acc r.1 r.2).1) t

/-- Python `sep.join(parts)`. -/
def joinSep (sep : String) : List String → String
  | [] => ""
  | [a] => a
  | a :: b :: rest => a ++ sep ++ joinSep sep (b :: rest)

/-- Model of `Tracker.send_peers_list`: the serialized directory listing sent to a
requesting peer — newline-joined `address: c1,c2,...` entries, or the
`NO_PEERS` sentinel when the table is empty. -/
def send_peers_list (t : List (String × List Int)) : String :=
  if t.isEmpty then "NO_PEERS"
  else
    joinSep "\n"
      (t.map (fun pc => pc.1 ++ ": " ++ joinSep "," (pc.2.map toString)))

/-! ## `peer.py` -/

/-- The literal sentinel bytes `b"CHUNK_NOT_FOUND"` sent for a chunk the
responder does not hold. -/
def CHUNK_NOT_FOUND : List Nat := "CHUNK_NOT_FOUND".data.map Char.toNat

/-- Model of `chunk_number in self.peer_chunks` lookup (dict of held chunks). -/
def lookupChunk : List (Int × List Nat) → Int → Option (List Nat)
  | [], _ => none
  | (q, d) :: rest, k => if q = k then some d else lookupChunk rest k

/-- Model of `self.uploaded_chunks[ip] = self.uploaded_chunks.get(ip, 0) + 1`. -/
def bumpUpload : List (String × Nat) → String → List (String × Nat)
  | [], ip => [(ip, 1)]
  | (q, c) :: rest, ip =>
      if q = ip then (q, c + 1) :: rest else (q, c) :: bumpUpload rest ip

/-- Model of `Peer.handle_chunk_request`: if the requested chunk number is held, send
its raw payload bytes and credit the requester in the upload ledger;
otherwise send the `CHUNK_NOT_FOUND` sentinel.  Returns the bytes put on the
wire and the updated upload ledger. -/
def handle_chunk_request (peer_chunks : List (Int × List Nat))
    (uploaded_chunks : List (String × Nat)) (requester_ip : String)
    (chunk_number : Int) : List Nat × List (String × Nat) :=
  match lookupChunk peer_chunks chunk_number with
  | some data => (data, bumpUpload uploaded_chunks requester_ip)
  | none => (CHUNK_NOT_FOUND, uploaded_chunks)

/-- The classification a requester applies to the received bytes in
`Peer.request_chunk_from_peer`: bytes equal to `b"CHUNK_NOT_FOUND"` yield the
failure result `(False, error text)`, anything else the success result
`(True, chunk_data)`.  `some data` models success with payload `data`, `none`
the not-found failure. -/
def classify_chunk_response (chunk_data : List Nat) : Option (List Nat) :=
  if chunk_data = CHUNK_NOT_FOUND then none else some chunk_data

/-- Writing `chunk_<n>.chunk` in `Peer.save_chunk_to_disk`: the directory maps
chunk numbers to file contents, and an existing file is overwritten. -/
def saveChunk : List (Int × List Nat) → Int → List Nat → List (Int × List Nat)
  | [], n, d => [(n, d)]
  | (q, v) :: rest, n, d =>
      if q = n then (q, d) :: rest else (q, v) :: saveChunk rest n d

/-- The acceptance step of the `Peer.download_chunks` fetch loop for one
fetched piece: the response bytes are classified, and on success — with no
digest check of any kind — the piece is added to `received_chunks`, marked
complete in the `PieceManager`, and its payload saved to disk.  On the
not-found classification the state is unchanged for this cycle. -/
def download_step (received_chunks : Finset Int) (pm : PieceManager)
    (disk : List (Int × List Nat)) (piece : Int) (response : List Nat) :
    Finset Int × PieceManager × List (Int × List Nat) :=
  match classify_chunk_response response with
  | some data =>
      (insert piece received_chunks, pm.mark_piece_complete piece,
        saveChunk disk piece data)
  | none => (received_chunks, pm, disk)

/-- Sequential chunk-file lookup of `Peer.reconstruct_file_from_chunks`:
every `chunk_<i>.chunk` for the listed indices must exist, else the
reconstruction aborts with an error. -/
def collectChunks (disk : List (Int × List Nat)) : List Int →
    Option (List (List Nat))
  | [] => some []
  | i :: is =>
      match lookupChunk disk i with
      | none => none
      | some c => (collectChunks disk is).map (c :: ·)

/-- Model of `Peer.reconstruct_file_from_chunks`: errors out when `total_chunks == 0`
or any of `chunk_1 .. chunk_total` is missing from the chunk directory
(`none`, no output produced); otherwise concatenates the chunk files in index
order into the reconstructed output bytes. -/
def reconstruct_file_from_chunks (disk : List (Int × List Nat))
    (total_chunks : Nat) : Option (List Nat) :=
  if total_chunks = 0 then none
  else
    (collectChunks disk ((List.range' 1 total_chunks).map Int.ofNat)).map
      List.flatten

/-- The sort key of `Peer.update_top_peers`: Python
`sorted(items, key=lambda item: item[1], reverse=True)` is a stable sort
placing higher upload counts first. -/
def countGE (a b : String × Nat) : Prop := b.2 ≤ a.2

instance : DecidableRel countGE := fun a b => Nat.decLe b.2 a.2

instance : IsTotal (String × Nat) countGE := ⟨fun a b => Nat.le_total b.2 a.2⟩

instance : IsTrans (String × Nat) countGE :=
  ⟨fun _ _ _ h h2 => Nat.le_trans h2 h⟩

/-- Model of `Peer.update_top_peers`: sorts the upload ledger by contribution
(descending, stable), takes the addresses of the top 4 entries, and picks the
optimistically unchoked peer with `random.choice` from the known peers outside
the top 4 — `None` when no such peer exists.  `choice` stands for
`random.choice`, which returns one element of its non-empty argument. -/
def update_top_peers (uploaded_chunks : List (String × Nat))
    (tracker_peers : List String) (choice : List String → String) :
    List String × Option String :=
  let sorted_peers := List.insertionSort countGE uploaded_chunks
  let top_peers := (sorted_peers.take 4).map Prod.fst
  let non_top_peers := tracker_peers.filter (fun p => !(top_peers.contains p))
  (top_peers,
    if non_top_peers.isEmpty then none else some (choice non_top_peers))

/-- The chunk directory produced by saving every piece of a split file under
its chunk number (`write_chunk_to_file` / `save_chunk_to_disk`). -/
def storeOf (chunks : List (List Nat × String × Nat)) : List (Int × List Nat) :=
  chunks.map (fun t => (Int.ofNat t.2.2, t.1))

/-- The upload count the ledger records for an address (0 if absent). -/
def ledgerCount : List (String × Nat) → String → Nat
  | [], _ => 0
  | (q, c) :: rest, k => if q = k then c else ledgerCount rest k

/-! ## Helper lemmas -/

theorem rarestFold_mem (missing : Finset Int) :
    ∀ (l : List (Int × Nat)) (acc : Option (Int × Nat)) (y : Int × Nat),
      (∀ x, acc = some x → x.1 ∈ missing) →
      l.foldl (rarestStep missing) acc = some y → y.1 ∈ missing := by
  intro l
  induction l with
  | nil => intro acc y hacc h; exact hacc y h
  | cons pc rest ih =>
      intro acc y hacc h
      refine ih (rarestStep missing acc pc) y ?_ h
      intro x hx
      cases acc with
      | none =>
          by_cases hm : pc.1 ∈ missing
          · simp only [rarestStep, if_pos hm, Option.some.injEq] at hx
            exact hx ▸ hm
          · simp [rarestStep, if_neg hm] at hx
      | some rm =>
          by_cases hm : pc.1 ∈ missing ∧ pc.2 < rm.2
          · simp only [rarestStep, if_pos hm, Option.some.injEq] at hx
            exact hx ▸ hm.1
          · simp only [rarestStep, if_neg hm, Option.some.injEq] at hx
            exact hacc x (by rw [hx])

theorem rarestFold_source (missing : Finset Int) :
    ∀ (l : List (Int × Nat)) (acc : Option (Int × Nat)) (y : Int × Nat),
      l.foldl (rarestStep missing) acc = some y → y ∈ l ∨ acc = some y := by
  intro l
  induction l with
  | nil => intro acc y h; exact Or.inr h
  | cons pc rest ih =>
      intro acc y h
      rcases ih (rarestStep missing acc pc) y h with hy | hy
      · exact Or.inl (List.mem_cons_of_mem pc hy)
      · cases acc with
        | none =>
            by_cases hm : pc.1 ∈ missing
            · simp only [rarestStep, if_pos hm, Option.some.injEq] at hy
              exact Or.inl (hy ▸ List.mem_cons_self pc rest)
            · simp [rarestStep, if_neg hm] at hy
        | some rm =>
            by_cases hm : pc.1 ∈ missing ∧ pc.2 < rm.2
            · simp only [rarestStep, if_pos hm, Option.some.injEq] at hy
              exact Or.inl (hy ▸ List.mem_cons_self pc rest)
            · simp only [rarestStep, if_neg hm, Option.some.injEq] at hy
              exact Or.inr (by rw [hy])

theorem rarestFold_skip (missing : Finset Int) :
    ∀ (l : List (Int × Nat)) (acc : Option (Int × Nat)),
      (∀ e ∈ l, e.1 ∉ missing) →
      l.foldl (rarestStep missing) acc = acc := by
  intro l
  induction l with
  | nil => intro acc _; rfl
  | cons pc rest ih =>
      intro acc habs
      have hpc : pc.1 ∉ missing := habs pc (List.mem_cons_self pc rest)
      have hstep : rarestStep missing acc pc = acc := by
        cases acc with
        | none => simp [rarestStep, if_neg hpc]
        | some rm =>
            have : ¬(pc.1 ∈ missing ∧ pc.2 < rm.2) := fun hc => hpc hc.1
            simp [rarestStep, if_neg this]
      calc (pc :: rest).foldl (rarestStep missing) acc
          = rest.foldl (rarestStep missing) (rarestStep missing acc pc) := rfl
        _ = rest.foldl (rarestStep missing) acc := by rw [hstep]
        _ = acc := ih acc (fun e he => habs e (List.mem_cons_of_mem pc he))

theorem get_rarest_mem_missing (s : PieceManager) (p : Int)
    (h : s.get_rarest_piece = some p) : p ∈ s.missing_pieces := by
  unfold PieceManager.get_rarest_piece at h
  rcases Option.map_eq_some'.mp h with ⟨y, hy, hyp⟩
  exact hyp ▸ rarestFold_mem s.missing_pieces s.available_pieces none y
    (fun x hx => by cases hx) hy

theorem get_rarest_recorded (s : PieceManager) (p : Int)
    (h : s.get_rarest_piece = some p) :
    p ∈ s.available_pieces.map Prod.fst := by
  unfold PieceManager.get_rarest_piece at h
  rcases Option.map_eq_some'.mp h with ⟨y, hy, hyp⟩
  rcases rarestFold_source s.missing_pieces s.available_pieces none y hy with
    hmem | hnone
  · exact hyp ▸ List.mem_map_of_mem Prod.fst hmem
  · cases hnone

theorem applyOp_missing_subset (s : PieceManager) (op : PMOp) :
    (s.applyOp op).missing_pieces ⊆ s.missing_pieces := by
  cases op with
  | update cs => exact Finset.Subset.refl _
  | mark p => exact Finset.erase_subset p s.missing_pieces

theorem applyOps_not_mem (p : Int) :
    ∀ (ops : List PMOp) (s : PieceManager), p ∉ s.missing_pieces →
      p ∉ (s.applyOps ops).missing_pieces := by
  intro ops
  induction ops with
  | nil => intro s h; exact h
  | cons op rest ih =>
      intro s h
      exact ih (s.applyOp op) (fun hc => h (applyOp_missing_subset s op hc))

/-! ## Claims about the Piece Directory -/

/-- C2 (counterexample): on a freshly initialized `PieceManager` with one
piece, the missing set is non-empty and no availability entry exists, yet
`get_rarest_piece` returns `none` — the unadvertised missing index 1 is not
selectable, contradicting the claim that an index with no recorded
availability entry is treated as count 0 and remains selectable. -/
theorem fresh_manager_rarest_none :
    (PieceManager.init 1).get_rarest_piece = none ∧
      (1 : Int) ∈ (PieceManager.init 1).missing_pieces ∧
      (PieceManager.init 1).missing_pieces ≠ ∅ := by
  refine ⟨rfl, by decide, by decide⟩

/-- C2 (amended): `get_rarest_piece` only ever selects indices that have a
recorded availability entry; a missing index never advertised by any peer is
not selectable, and the operation returns `none` whenever no recorded index is
missing — even when the missing set itself is non-empty. -/
theorem rarest_requires_recorded_entry (s : PieceManager) :
    (∀ p : Int, s.get_rarest_piece = some p →
        p ∈ s.available_pieces.map Prod.fst ∧ p ∈ s.missing_pieces) ∧
      ((∀ e ∈ s.available_pieces, e.1 ∉ s.missing_pieces) →
        s.get_rarest_piece = none) := by
  constructor
  · intro p hp
    exact ⟨get_rarest_recorded s p hp, get_rarest_mem_missing s p hp⟩
  · intro habs
    unfold PieceManager.get_rarest_piece
    rw [rarestFold_skip s.missing_pieces s.available_pieces none habs]
    rfl

/-- C2 (witness): the amended theorem applied to a concrete directory in
which piece 2 is recorded with one holder while pieces of `missing` without
entries are ignored. -/
theorem rarest_requires_recorded_entry_witness :
    ((PieceManager.init 3).update_available_pieces [2]).get_rarest_piece
        = some 2 ∧
      (2 : Int) ∈ ((PieceManager.init 3).update_available_pieces
        [2]).available_pieces.map Prod.fst ∧
      (2 : Int) ∈ ((PieceManager.init 3).update_available_pieces
        [2]).missing_pieces := by
  have h := (rarest_requires_recorded_entry
    ((PieceManager.init 3).update_available_pieces [2])).1 2 (by decide)
  exact ⟨by decide, h.1, h.2⟩

/-- C6: for every number of pieces and every sequence of
`update_available_pieces` calls applied to a fresh Piece Directory, a
non-`none` result of `get_rarest_piece` is an index currently in the missing
set. -/
theorem rarest_piece_in_missing (total : Int) (calls : List (List Int))
    (p : Int)
    (h : (calls.foldl PieceManager.update_available_pieces
        (PieceManager.init total)).get_rarest_piece = some p) :
    p ∈ (calls.foldl PieceManager.update_available_pieces
        (PieceManager.init total)).missing_pieces :=
  get_rarest_mem_missing _ p h

/-- C6 (witness): two pieces, one availability observation for piece 2. -/
theorem rarest_piece_in_missing_witness :
    ([[2]].foldl PieceManager.update_available_pieces
        (PieceManager.init 2)).get_rarest_piece = some 2 ∧
      (2 : Int) ∈ ([[2]].foldl PieceManager.update_available_pieces
        (PieceManager.init 2)).missing_pieces :=
  ⟨by decide, rarest_piece_in_missing 2 [[2]] 2 (by decide)⟩

/-- C7: `mark_piece_complete` is an idempotent removal from the missing set;
the missing set starts as all indices `1..total_pieces` and only ever shrinks
under the Piece Directory operations; once a piece is marked complete it is
permanently outside the missing set and permanently outside every later
`get_rarest_piece` result, whatever `update_available_pieces` /
`mark_piece_complete` calls follow; and `is_complete` holds exactly when the
missing set is empty. -/
theorem mark_complete_permanent (total : Int) (s : PieceManager) (p : Int)
    (ops : List PMOp) :
    (PieceManager.init total).missing_pieces = Finset.Icc 1 total ∧
      (s.mark_piece_complete p).mark_piece_complete p
        = s.mark_piece_complete p ∧
      (∀ op : PMOp, (s.applyOp op).missing_pieces ⊆ s.missing_pieces) ∧
      p ∉ ((s.mark_piece_complete p).applyOps ops).missing_pieces ∧
      ((s.mark_piece_complete p).applyOps ops).get_rarest_piece ≠ some p ∧
      (s.is_complete = true ↔ s.missing_pieces = ∅) := by
  have habsent : p ∉ ((s.mark_piece_complete p).applyOps ops).missing_pieces :=
    applyOps_not_mem p ops (s.mark_piece_complete p)
      (Finset.not_mem_erase p s.missing_pieces)
  refine ⟨rfl, ?_, applyOp_missing_subset s, habsent, ?_, ?_⟩
  · simp only [PieceManager.mark_piece_complete, Finset.erase_idem]
  · intro hc
    exact habsent (get_rarest_mem_missing _ p hc)
  · simp [PieceManager.is_complete, Finset.card_eq_zero]

/-- C7 (witness): concrete run — mark piece 1 of 2 complete, then observe an
availability update for piece 1; piece 1 stays out of the missing set and out
of the rarest-piece result. -/
theorem mark_complete_permanent_witness :
    (1 : Int) ∉ (((PieceManager.init 2).mark_piece_complete 1).applyOps
        [PMOp.update [1]]).missing_pieces ∧
      (((PieceManager.init 2).mark_piece_complete 1).applyOps
        [PMOp.update [1]]).get_rarest_piece ≠ some 1 :=
  ⟨(mark_complete_permanent 2 (PieceManager.init 2) 1
      [PMOp.update [1]]).2.2.2.1,
    (mark_complete_permanent 2 (PieceManager.init 2) 1
      [PMOp.update [1]]).2.2.2.2.1⟩

/-- C10: frame property — `update_available_pieces` changes only the
availability counts, never the missing set or `total_pieces`;
`mark_piece_complete` changes only the missing set, never the availability
counts or `total_pieces`. -/
theorem piece_manager_frame (s : PieceManager) (peer_chunks : List Int)
    (p : Int) :
    (s.update_available_pieces peer_chunks).missing_pieces
        = s.missing_pieces ∧
      (s.update_available_pieces peer_chunks).total_pieces = s.total_pieces ∧
      (s.mark_piece_complete p).available_pieces = s.available_pieces ∧
      (s.mark_piece_complete p).total_pieces = s.total_pieces :=
  ⟨rfl, rfl, rfl, rfl⟩

/-! ## Claims about the Tracker -/

theorem containsKey_iff (t : List (String × List Int)) (k : String) :
    containsKey t k = true ↔ k ∈ t.map Prod.fst := by
  simp only [containsKey, List.any_eq_true, List.mem_map, beq_iff_eq]

theorem filter_key_eq_nil (t : List (String × List Int)) (k : String)
    (h : k ∉ t.map Prod.fst) : t.filter (fun e => e.1 == k) = [] := by
  rw [List.filter_eq_nil_iff]
  intro e he hk
  exact h (List.mem_map.mpr ⟨e, he, beq_iff_eq.mp hk⟩)

theorem keys_replaceVal (k : String) (c : List Int) :
    ∀ t : List (String × List Int),
      (replaceVal t k c).map Prod.fst = t.map Prod.fst := by
  intro t
  induction t with
  | nil => rfl
  | cons e rest ih =>
      by_cases hq : e.1 = k
      · simp [replaceVal, hq]
      · simp [replaceVal, hq, ih]

theorem replaceVal_filter (k : String) (c : List Int) :
    ∀ t : List (String × List Int), (t.map Prod.fst).Nodup →
      k ∈ t.map Prod.fst →
      (replaceVal t k c).filter (fun e => e.1 == k) = [(k, c)] := by
  intro t
  induction t with
  | nil => intro _ hk; cases hk
  | cons e rest ih =>
      intro hn hk
      rw [List.map_cons, List.nodup_cons] at hn
      by_cases hq : e.1 = k
      · subst hq
        simp only [replaceVal, if_pos rfl]
        simp [List.filter_cons, filter_key_eq_nil rest e.1 hn.1]
      · have hrk : k ∈ rest.map Prod.fst := by
          rcases List.mem_cons.mp (List.map_cons Prod.fst e rest ▸ hk) with
            h1 | h1
          · exact absurd h1.symm hq
          · exact h1
        simp only [replaceVal, if_neg hq, List.filter_cons]
        rw [if_neg (by simpa using hq), ih hn.2 hrk]

theorem add_peer_keys_nodup (u : List (String × List Int)) (a : String)
    (c : List Int) (hn : (u.map Prod.fst).Nodup) :
    (((add_peer u a c).1.map Prod.fst).Nodup) := by
  by_cases hc : containsKey u a
  · simp only [add_peer, if_pos hc]
    rw [keys_replaceVal]
    exact hn
  · simp only [add_peer, if_neg hc]
    rw [List.map_append]
    have ha : a ∉ u.map Prod.fst := fun hmem =>
      hc ((containsKey_iff u a).mpr hmem)
    simp [List.nodup_append, hn, ha]

theorem add_peer_filter (u : List (String × List Int)) (a : String)
    (c : List Int) (hn : (u.map Prod.fst).Nodup) :
    ((add_peer u a c).1.filter (fun e => e.1 == a)) = [(a, c)] := by
  by_cases hc : containsKey u a
  · simp only [add_peer, if_pos hc]
    exact replaceVal_filter a c u hn ((containsKey_iff u a).mp hc)
  · simp only [add_peer, if_neg hc]
    rw [List.filter_append,
      filter_key_eq_nil u a (fun hmem => hc ((containsKey_iff u a).mpr hmem))]
    simp

theorem applyRegistrations_keys_nodup (t : List (String × List Int))
    (hn : (t.map Prod.fst).Nodup) :
    ∀ regs : List (String × List Int),
      ((applyRegistrations t regs).map Prod.fst).Nodup := by
  intro regs
  induction regs generalizing t with
  | nil => exact hn
  | cons r rest ih =>
      exact ih (add_peer t r.1 r.2).1 (add_peer_keys_nodup t r.1 r.2 hn)

theorem applyRegistrations_append (t : List (String × List Int))
    (regs : List (String × List Int)) (r : String × List Int) :
    applyRegistrations t (regs ++ [r])
      = (add_peer (applyRegistrations t regs) r.1 r.2).1 := by
  simp [applyRegistrations, List.foldl_append]

/-- C4: starting from any well-formed peer table, after any sequence of
registrations ending with `ADD_PEER addr chunks` the table holds exactly one
Peer Record for `addr`, carrying the latest chunk list; key uniqueness is
preserved; and the acknowledgment distinguishes a pre-existing address
(`PEER_UPDATED`) from a new one (`PEER_ADDED`). -/
theorem add_peer_single_record (t : List (String × List Int))
    (hn : (t.map Prod.fst).Nodup) (regs : List (String × List Int))
    (addr : String) (chunks : List Int) :
    (applyRegistrations t (regs ++ [(addr, chunks)])).filter
        (fun e => e.1 == addr) = [(addr, chunks)] ∧
      ((applyRegistrations t (regs ++ [(addr, chunks)])).map Prod.fst).Nodup ∧
      (addr ∈ (applyRegistrations t regs).map Prod.fst →
        (add_peer (applyRegistrations t regs) addr chunks).2
          = "PEER_UPDATED") ∧
      (addr ∉ (applyRegistrations t regs).map Prod.fst →
        (add_peer (applyRegistrations t regs) addr chunks).2
          = "PEER_ADDED") ∧
      ("PEER_ADDED" : String) ≠ "PEER_UPDATED" := by
  have hb : (applyRegistrations t regs).map Prod.fst |>.Nodup :=
    applyRegistrations_keys_nodup t hn regs
  rw [applyRegistrations_append t regs (addr, chunks)]
  refine ⟨add_peer_filter _ addr chunks hb,
    add_peer_keys_nodup _ addr chunks hb, ?_, ?_, by decide⟩
  · intro hmem
    simp [add_peer, if_pos ((containsKey_iff _ addr).mpr hmem)]
  · intro hmem
    have hcf : containsKey (applyRegistrations t regs) addr = false :=
      Bool.eq_false_iff.mpr
        (fun hc => hmem ((containsKey_iff (applyRegistrations t regs)
          addr).mp hc))
    simp [add_peer, hcf]

/-- C4 (witness): registering an already-registered address with a new chunk
list leaves exactly one record, holding the latest list. -/
theorem add_peer_single_record_witness :
    (applyRegistrations [("10.0.0.1:8000", [1])]
        ([] ++ [("10.0.0.1:8000", [2, 3])])).filter
        (fun e => e.1 == "10.0.0.1:8000") = [("10.0.0.1:8000", [2, 3])] :=
  (add_peer_single_record [("10.0.0.1:8000", [1])] (by decide) []
    "10.0.0.1:8000" [2, 3]).1

/-- C8: `send_peers_list` on an empty peer table returns the `NO_PEERS`
sentinel, and the listing for a table holding one registered peer with an
empty piece list — whatever its address — is a different string, so the two
situations are distinguishable. -/
theorem no_peers_sentinel_distinct (addr : String) :
    send_peers_list [] = "NO_PEERS" ∧
      send_peers_list [(addr, [])] ≠ "NO_PEERS" := by
  refine ⟨rfl, ?_⟩
  intro h
  have he : send_peers_list [(addr, [])] = addr ++ ": " ++ "" := rfl
  rw [he] at h
  have hd := congrArg String.data h
  rw [String.data_append, String.data_append] at hd
  have hr := congrArg List.reverse hd
  rw [List.reverse_append, List.reverse_append] at hr
  simp only [List.reverse_cons, List.reverse_nil, List.nil_append,
    List.cons_append, List.append_nil] at hr
  exact absurd (List.head_eq_of_cons_eq hr) (by decide)

/-- C8 (witness): concrete address. -/
theorem no_peers_sentinel_distinct_witness :
    send_peers_list [("127.0.0.1:8000", [])] ≠ "NO_PEERS" :=
  (no_peers_sentinel_distinct "127.0.0.1:8000").2

/-! ## Claims about the peer wire protocol and fetch loop -/

/-- C3 (counterexample): a responder holding piece 1 whose raw payload is
byte-identical to `b"CHUNK_NOT_FOUND"` serves exactly those bytes, and the
requester classifies them as not-found — so the sentinel is not
distinguishable from every valid payload byte sequence. -/
theorem sentinel_payload_misclassified :
    lookupChunk [(1, CHUNK_NOT_FOUND)] 1 = some CHUNK_NOT_FOUND ∧
      (handle_chunk_request [(1, CHUNK_NOT_FOUND)] [] "203.0.113.5" 1).1
        = CHUNK_NOT_FOUND ∧
      classify_chunk_response
        (handle_chunk_request [(1, CHUNK_NOT_FOUND)] [] "203.0.113.5" 1).1
        = none := by
  refine ⟨rfl, rfl, ?_⟩
  simp [classify_chunk_response, handle_chunk_request, lookupChunk]

/-- C3 (amended): a request for a piece the responder does not hold is
answered with the literal sentinel bytes `CHUNK_NOT_FOUND`, never raw payload
bytes, and a held piece is answered with its raw payload; the requester
classifies exactly the literal sentinel byte sequence as not-found, so the
sentinel is distinguishable from every payload except one byte-identical to
`CHUNK_NOT_FOUND`, which is misclassified. -/
theorem chunk_request_protocol (peer_chunks : List (Int × List Nat))
    (uploaded : List (String × Nat)) (ip : String) (n : Int) :
    (lookupChunk peer_chunks n = none →
        (handle_chunk_request peer_chunks uploaded ip n).1
          = CHUNK_NOT_FOUND) ∧
      (∀ d, lookupChunk peer_chunks n = some d →
        (handle_chunk_request peer_chunks uploaded ip n).1 = d) ∧
      (∀ d : List Nat, d ≠ CHUNK_NOT_FOUND →
        classify_chunk_response d = some d) ∧
      classify_chunk_response CHUNK_NOT_FOUND = none := by
  refine ⟨?_, ?_, ?_, ?_⟩
  · intro h
    simp [handle_chunk_request, h]
  · intro d h
    simp [handle_chunk_request, h]
  · intro d h
    simp [classify_chunk_response, h]
  · simp [classify_chunk_response]

/-- C3 (witness): a responder holding nothing answers with the sentinel, and
an ordinary payload is classified as a success. -/
theorem chunk_request_protocol_witness :
    (handle_chunk_request [] [] "203.0.113.7" 5).1 = CHUNK_NOT_FOUND ∧
      classify_chunk_response [7, 7] = some [7, 7] :=
  ⟨(chunk_request_protocol [] [] "203.0.113.7" 5).1 rfl,
    (chunk_request_protocol [] [] "203.0.113.7" 5).2.2.1 [7, 7] (by decide)⟩

set_option maxRecDepth 100000 in
/-- C1 (code bug): the fetch loop of `download_chunks` never consults
`verify_chunk` or the expected digests.  Concretely, for a single-piece swarm
whose piece 1 is the byte `0x00` (expected digest `calculate_sha1 [0]`), a
peer delivering the wrong payload `[1]` fails verification, yet the
acceptance step marks piece 1 complete, adds it to `received_chunks`, and
persists the bogus payload to disk. -/
theorem download_step_ignores_digest :
    verify_chunk [1] (calculate_sha1 [0]) = false ∧
      (1 : Int) ∈ (download_step ∅ (PieceManager.init 1) [] 1 [1]).1 ∧
      (1 : Int) ∉
        (download_step ∅ (PieceManager.init 1) [] 1 [1]).2.1.missing_pieces ∧
      lookupChunk (download_step ∅ (PieceManager.init 1) [] 1 [1]).2.2 1
        = some [1] := by
  constructor
  · decide
  · refine ⟨?_, ?_, ?_⟩ <;> decide

theorem contains_iff_mem_str (l : List String) (x : String) :
    l.contains x = true ↔ x ∈ l := by
  simp

theorem ledgerCount_eq_of_mem :
    ∀ (l : List (String × Nat)), (l.map Prod.fst).Nodup →
      ∀ x ∈ l, ledgerCount l x.1 = x.2 := by
  intro l
  induction l with
  | nil => intro _ x hx; cases hx
  | cons e rest ih =>
      intro hn x hx
      rw [List.map_cons, List.nodup_cons] at hn
      rcases List.mem_cons.mp hx with hx | hx
      · subst hx
        simp [ledgerCount]
      · have hne : e.1 ≠ x.1 := fun hq =>
          hn.1 (hq ▸ List.mem_map_of_mem Prod.fst hx)
        simp only [ledgerCount, if_neg hne]
        exact ih hn.2 x hx

/-- C5: `update_top_peers` ranks at most 4 addresses, in weakly descending
order of their recorded upload counts; every ledger entry left out of the top
list has a count no larger than that of each top peer (so the top list indeed
holds the highest counts, with ties broken by the stable sort in ledger
order); the optimistically unchoked peer, when present, comes from the known
peers outside the top list (and is absent only when every known peer is
already in the top list); and on the ledger `A:5, B:3, C:8, D:2, E:10` with
known peers `A..E` it yields exactly `top_peers = [E, C, A, B]` and
`optimistic_peer = D`. -/
theorem update_top_peers_ranking (uploaded : List (String × Nat))
    (peers : List String) (choice : List String → String)
    (hn : (uploaded.map Prod.fst).Nodup)
    (hc : ∀ l : List String, l ≠ [] → choice l ∈ l) :
    (update_top_peers uploaded peers choice).1.length ≤ 4 ∧
      List.Pairwise
        (fun a b => ledgerCount uploaded b ≤ ledgerCount uploaded a)
        (update_top_peers uploaded peers choice).1 ∧
      (∀ x, (update_top_peers uploaded peers choice).2 = some x →
        x ∈ peers ∧ x ∉ (update_top_peers uploaded peers choice).1) ∧
      ((update_top_peers uploaded peers choice).2 = none →
        ∀ p ∈ peers, p ∈ (update_top_peers uploaded peers choice).1) ∧
      (∀ q ∈ uploaded, q.1 ∉ (update_top_peers uploaded peers choice).1 →
        ∀ p ∈ (update_top_peers uploaded peers choice).1,
          q.2 ≤ ledgerCount uploaded p) ∧
      update_top_peers [("A", 5), ("B", 3), ("C", 8), ("D", 2), ("E", 10)]
        ["A", "B", "C", "D", "E"] choice = (["E", "C", "A", "B"], some "D") := by
  refine ⟨?_, ?_, ?_, ?_, ?_, ?_⟩
  · simp only [update_top_peers, List.length_map]
    exact List.length_take_le 4 (List.insertionSort countGE uploaded)
  · have hs : List.Pairwise countGE (List.insertionSort countGE uploaded) :=
      List.sorted_insertionSort countGE uploaded
    have hmem : ∀ x ∈ List.insertionSort countGE uploaded,
        ledgerCount uploaded x.1 = x.2 := fun x hx =>
      ledgerCount_eq_of_mem uploaded hn x
        ((List.mem_insertionSort countGE).mp hx)
    have h2 : List.Pairwise
        (fun a b : String × Nat =>
          ledgerCount uploaded b.1 ≤ ledgerCount uploaded a.1)
        (List.insertionSort countGE uploaded) :=
      hs.imp_of_mem (fun ha hb hr => by
        rw [hmem _ ha, hmem _ hb]; exact hr)
    have h3 := h2.sublist
      (List.take_sublist 4 (List.insertionSort countGE uploaded))
    exact List.pairwise_map.mpr h3
  · intro x hx
    by_cases he : (peers.filter (fun p =>
        !(((List.insertionSort countGE uploaded).take 4).map
          Prod.fst).contains p)).isEmpty
    · simp only [update_top_peers, he, if_pos] at hx
      cases hx
    · simp only [update_top_peers, he, if_neg, Bool.false_eq_true,
        not_false_iff, Option.some.injEq] at hx
      have hne : peers.filter (fun p =>
          !(((List.insertionSort countGE uploaded).take 4).map
            Prod.fst).contains p) ≠ [] := fun hnil => he (by rw [hnil]; rfl)
      have hcm := hc _ hne
      rw [hx] at hcm
      have hf := List.mem_filter.mp hcm
      refine ⟨hf.1, fun hxm => ?_⟩
      simp only [update_top_peers] at hxm
      have hct := (contains_iff_mem_str
        (((List.insertionSort countGE uploaded).take 4).map Prod.fst) x).mpr
        hxm
      have hb := hf.2
      rw [hct] at hb
      simp at hb
  · intro hnone p hp
    by_cases he : (peers.filter (fun p =>
        !(((List.insertionSort countGE uploaded).take 4).map
          Prod.fst).contains p)).isEmpty
    · have hnil := List.isEmpty_iff.mp he
      rw [List.filter_eq_nil_iff] at hnil
      have hnp := hnil p hp
      simp only [update_top_peers]
      by_cases hm : p ∈ ((List.insertionSort countGE uploaded).take 4).map
        Prod.fst
      · exact hm
      · have hcf : (((List.insertionSort countGE uploaded).take 4).map
            Prod.fst).contains p = false :=
          Bool.eq_false_iff.mpr (fun hct =>
            hm ((contains_iff_mem_str _ p).mp hct))
        exact absurd (by rw [hcf]; rfl) hnp
    · simp only [update_top_peers, he, if_neg, Bool.false_eq_true,
        not_false_iff] at hnone
      cases hnone
  · intro q hq hqn p hp
    have hmem : ∀ x ∈ List.insertionSort countGE uploaded,
        ledgerCount uploaded x.1 = x.2 := fun x hx =>
      ledgerCount_eq_of_mem uploaded hn x
        ((List.mem_insertionSort countGE).mp hx)
    have hqs : q ∈ List.insertionSort countGE uploaded :=
      (List.mem_insertionSort countGE).mpr hq
    have hsp : List.Pairwise countGE (List.insertionSort countGE uploaded) :=
      List.sorted_insertionSort countGE uploaded
    have hsplit := List.take_append_drop 4 (List.insertionSort countGE
      uploaded)
    rcases List.mem_append.mp (by rw [hsplit]; exact hqs) with hqt | hqd
    · exact absurd (List.mem_map_of_mem Prod.fst hqt) hqn
    · simp only [update_top_peers] at hp
      rcases List.mem_map.mp hp with ⟨a, ha, hap⟩
      rw [← hsplit] at hsp
      have hpw := (List.pairwise_append.mp hsp).2.2
      rw [← hap, hmem a (List.take_subset 4 _ ha)]
      exact hpw a ha q hqd
  · have hd := hc ["D"] (by decide)
    rw [List.mem_singleton] at hd
    have he : update_top_peers [("A", 5), ("B", 3), ("C", 8), ("D", 2),
        ("E", 10)] ["A", "B", "C", "D", "E"] choice
        = (["E", "C", "A", "B"], some (choice ["D"])) := rfl
    rw [he, hd]

/-- C5 (witness): the ranking applied with a concrete (deterministic) stand-in
for `random.choice`. -/
theorem update_top_peers_ranking_witness :
    update_top_peers [("A", 5), ("B", 3), ("C", 8), ("D", 2), ("E", 10)]
        ["A", "B", "C", "D", "E"] (fun l => l.headD "")
      = (["E", "C", "A", "B"], some "D") :=
  (update_top_peers_ranking
    [("A", 5), ("B", 3), ("C", 8), ("D", 2), ("E", 10)]
    ["A", "B", "C", "D", "E"] (fun l => l.headD "") (by decide)
    (fun l hl => by
      cases l with
      | nil => exact absurd rfl hl
      | cons a t => simp)).2.2.2.2.2

/-! ## Round-trip: splitting, verifying, reassembling -/

theorem divideFrom_flatten (cs : Nat) (hcs : 0 < cs) :
    ∀ (n : Nat) (data : List Nat), data.length ≤ n → ∀ k : Nat,
      ((divideFrom cs data k).map (fun t => t.1)).flatten = data := by
  intro n
  induction n with
  | zero =>
      intro data hlen k
      have hnil : data = [] := List.length_eq_zero.mp (Nat.le_zero.mp hlen)
      subst hnil
      rw [divideFrom]
      simp
  | succ m ih =>
      intro data hlen k
      by_cases hd : data = []
      · subst hd
        rw [divideFrom]
        simp
      · rw [divideFrom, dif_neg (not_or.mpr ⟨hcs.ne', hd⟩)]
        simp only [List.map_cons, List.flatten_cons]
        rw [ih (data.drop cs) ?_ (k + 1)]
        · exact List.take_append_drop cs data
        · have h1 : (data.drop cs).length = data.length - cs :=
            List.length_drop cs data
          omega

theorem divideFrom_hash (cs : Nat) :
    ∀ (n : Nat) (data : List Nat), data.length ≤ n → ∀ k : Nat,
      ∀ t ∈ divideFrom cs data k, t.2.1 = calculate_sha1 t.1 := by
  intro n
  induction n with
  | zero =>
      intro data hlen k t ht
      have hnil : data = [] := List.length_eq_zero.mp (Nat.le_zero.mp hlen)
      subst hnil
      rw [divideFrom] at ht
      simp at ht
  | succ m ih =>
      intro data hlen k t ht
      by_cases hz : cs = 0 ∨ data = []
      · rw [divideFrom, dif_pos hz] at ht
        cases ht
      · rw [divideFrom, dif_neg hz] at ht
        rcases List.mem_cons.mp ht with ht | ht
        · subst ht; rfl
        · have hcs : 0 < cs := Nat.pos_of_ne_zero (not_or.mp hz).1
          have hd : data ≠ [] := (not_or.mp hz).2
          refine ih (data.drop cs) ?_ (k + 1) t ht
          have h1 : (data.drop cs).length = data.length - cs :=
            List.length_drop cs data
          have h2 : 0 < data.length := List.length_pos.mpr hd
          omega

theorem divideFrom_numbers (cs : Nat) :
    ∀ (n : Nat) (data : List Nat), data.length ≤ n → ∀ k : Nat,
      (divideFrom cs data k).map (fun t => t.2.2)
        = List.range' k (divideFrom cs data k).length := by
  intro n
  induction n with
  | zero =>
      intro data hlen k
      have hnil : data = [] := List.length_eq_zero.mp (Nat.le_zero.mp hlen)
      subst hnil
      rw [divideFrom]
      simp
  | succ m ih =>
      intro data hlen k
      by_cases hz : cs = 0 ∨ data = []
      · rw [divideFrom, dif_pos hz]
        simp
      · rw [divideFrom, dif_neg hz]
        have hcs : 0 < cs := Nat.pos_of_ne_zero (not_or.mp hz).1
        have hd : data ≠ [] := (not_or.mp hz).2
        simp only [List.map_cons, List.length_cons, List.range'_succ]
        rw [ih (data.drop cs) ?_ (k + 1)]
        have h1 : (data.drop cs).length = data.length - cs :=
          List.length_drop cs data
        have h2 : 0 < data.length := List.length_pos.mpr hd
        omega

theorem collectChunks_cons_of_ne (key : Int) (v : List Nat)
    (s : List (Int × List Nat)) :
    ∀ idxs : List Int, (∀ i ∈ idxs, i ≠ key) →
      collectChunks ((key, v) :: s) idxs = collectChunks s idxs := by
  intro idxs
  induction idxs with
  | nil => intro _; rfl
  | cons i is ih =>
      intro hne
      have hik : key ≠ i := fun h =>
        hne i (List.mem_cons_self i is) h.symm
      simp only [collectChunks, lookupChunk, if_neg hik]
      rw [ih (fun j hj => hne j (List.mem_cons_of_mem i hj))]

theorem collect_divideFrom (cs : Nat) (hcs : 0 < cs) :
    ∀ (n : Nat) (data : List Nat), data.length ≤ n → ∀ k : Nat,
      collectChunks (storeOf (divideFrom cs data k))
          ((List.range' k (divideFrom cs data k).length).map Int.ofNat)
        = some ((divideFrom cs data k).map (fun t => t.1)) := by
  intro n
  induction n with
  | zero =>
      intro data hlen k
      have hnil : data = [] := List.length_eq_zero.mp (Nat.le_zero.mp hlen)
      subst hnil
      rw [divideFrom]
      simp [storeOf, collectChunks]
  | succ m ih =>
      intro data hlen k
      by_cases hd : data = []
      · subst hd
        rw [divideFrom]
        simp [storeOf, collectChunks]
      · rw [divideFrom, dif_neg (not_or.mpr ⟨hcs.ne', hd⟩)]
        simp only [storeOf, List.map_cons, List.length_cons,
          List.range'_succ]
        simp only [collectChunks, lookupChunk, if_pos rfl]
        rw [collectChunks_cons_of_ne (Int.ofNat k) (data.take cs)
          (List.map (fun t => (Int.ofNat t.2.2, t.1))
            (divideFrom cs (data.drop cs) (k + 1)))
          ((List.range' (k + 1)
            (divideFrom cs (data.drop cs) (k + 1)).length).map Int.ofNat)
          ?_]
        · have hlen2 : (data.drop cs).length ≤ m := by
            have h1 : (data.drop cs).length = data.length - cs :=
              List.length_drop cs data
            have h2 : 0 < data.length := List.length_pos.mpr hd
            omega
          have := ih (data.drop cs) hlen2 (k + 1)
          simp only [storeOf] at this
          rw [this]
          rfl
        · intro i hi
          rcases List.mem_map.mp hi with ⟨j, hj, hji⟩
          rcases List.mem_range'.mp hj with ⟨a, _, hja⟩
          intro hik
          subst hji
          have : j = k := Int.ofNat.inj hik
          omega

/-- C9 (counterexample): for the empty byte sequence the pipeline does not
reproduce the original — the splitter yields no pieces, `total_chunks` is 0,
and `reconstruct_file_from_chunks` takes its `total_chunks == 0` error path,
producing no output at all instead of the (empty) original. -/
theorem empty_input_roundtrip_fails :
    divide_file_to_chunks [] CHUNK_SIZE = [] ∧
      reconstruct_file_from_chunks
          (storeOf (divide_file_to_chunks [] CHUNK_SIZE))
          (divide_file_to_chunks [] CHUNK_SIZE).length
        ≠ some ([] : List Nat) := by
  have h1 : divide_file_to_chunks [] CHUNK_SIZE = [] := by
    rw [divide_file_to_chunks, divideFrom]
    simp
  refine ⟨h1, ?_⟩
  rw [h1]
  simp [reconstruct_file_from_chunks, storeOf]

/-- C9 (amended): for every non-empty byte sequence, splitting it into
`CHUNK_SIZE`-byte pieces, saving every piece under its chunk number, and
reassembling pieces 1..total in index order reproduces the original bytes
exactly; every piece verifies against the digest computed at split time; and
the chunk numbers are exactly `1..total` in order. -/
theorem chunk_roundtrip (data : List Nat) (hd : data ≠ []) :
    reconstruct_file_from_chunks
        (storeOf (divide_file_to_chunks data CHUNK_SIZE))
        (divide_file_to_chunks data CHUNK_SIZE).length = some data ∧
      (∀ t ∈ divide_file_to_chunks data CHUNK_SIZE,
        verify_chunk t.1 t.2.1 = true) ∧
      (divide_file_to_chunks data CHUNK_SIZE).map (fun t => t.2.2)
        = List.range' 1 (divide_file_to_chunks data CHUNK_SIZE).length := by
  have hcs : 0 < CHUNK_SIZE := by decide
  have htot : (divide_file_to_chunks data CHUNK_SIZE).length ≠ 0 := by
    rw [divide_file_to_chunks, divideFrom,
      dif_neg (not_or.mpr ⟨hcs.ne', hd⟩)]
    simp
  refine ⟨?_, ?_, ?_⟩
  · rw [reconstruct_file_from_chunks, if_neg htot]
    rw [divide_file_to_chunks] at htot ⊢
    rw [collect_divideFrom CHUNK_SIZE hcs data.length data (Nat.le_refl _) 1]
    rw [Option.map_some']
    rw [divideFrom_flatten CHUNK_SIZE hcs data.length data (Nat.le_refl _) 1]
  · intro t ht
    rw [divide_file_to_chunks] at ht
    rw [divideFrom_hash CHUNK_SIZE data.length data (Nat.le_refl _) 1 t ht]
    simp [verify_chunk]
  · rw [divide_file_to_chunks]
    exact divideFrom_numbers CHUNK_SIZE data.length data (Nat.le_refl _) 1

/-- C9 (witness): round trip on the concrete bytes `[0, 1, 2]`. -/
theorem chunk_roundtrip_witness :
    reconstruct_file_from_chunks
        (storeOf (divide_file_to_chunks [0, 1, 2] CHUNK_SIZE))
        (divide_file_to_chunks [0, 1, 2] CHUNK_SIZE).length
      = some [0, 1, 2] :=
  (chunk_roundtrip [0, 1, 2] (by decide)).1
